import Mathlib

/-!
Verification of the labrador-ldpc LDPC library against its specification.

The repository ships `src/lib.rs` (crate documentation, size tables and the
public API description); the bodies of the `codes`, `encoder` and `decoder`
modules are not part of the source tree here, so the operations below are
modelled from the specification's algorithm descriptions (spec §3-§4, §6-§7)
and from the size tables in `lib.rs`.  Bit buffers are modelled as
`List Bool` (bit `8*b + i` of the byte stream is element `8*b + i`, MSB
first within each byte), machine bytes as `Nat` below 256, and the soft
values of the message-passing decoder as signed integers (`Int`), matching
the spec's description of the working area as "per-edge messages ... as
signed values".
-/

set_option maxHeartbeats 2000000
set_option maxRecDepth 40000

namespace LabradorLDPC

/-- Modelled from the spec (§6 "Bit/byte format", `lib.rs` missing byte
helpers): the 8 bits of a byte, MSB first: bit `i` of byte `b` carries
codeword bit `8*b+i`, with `i = 0` the most significant bit. -/
def byteBits (b : Nat) : List Bool :=
  (List.range 8).map fun t => b.testBit (7 - t)

/-- Modelled from the spec (§6): a byte buffer unpacked to its bit stream. -/
def bitsOfBytes (bs : List Nat) : List Bool :=
  bs.flatMap byteBits

/-- Repack 8 bits (MSB first) into a byte value. -/
def bitsToByte (l : List Bool) : Nat :=
  l.foldl (fun a b => 2 * a + (if b then 1 else 0)) 0

/-- Modelled from the spec (§6): a bit stream packed back into bytes,
eight bits per byte, MSB first. -/
def bytesOfBits : List Bool → List Nat
  | b0 :: b1 :: b2 :: b3 :: b4 :: b5 :: b6 :: b7 :: rest =>
      bitsToByte [b0, b1, b2, b3, b4, b5, b6, b7] :: bytesOfBits rest
  | _ => []

/-- Modelled from the spec (§3 "Compact generator", §4.3): the per-code data
of the generator side that the missing `codes` module ships as compile-time
tables.  `k` dataword bits, `r` parity bits of the internal codeword
(`n - k + p`), row-block size `M`, `nsub` circulant sub-blocks per row, and
the compact generator rows (one stored row per row-block, each `r` bits). -/
structure CodeShape where
  k : Nat
  r : Nat
  M : Nat
  nsub : Nat
  compact : List (List Bool)

/-- Width of one circulant sub-block of a generator row (spec §4.3:
"each (n-k)/circulant-count sub-block"). -/
def subW (G : CodeShape) : Nat := G.r / G.nsub

/-- Modelled from the spec (§4.3 "Generator expansion", missing
`codes::compact_generators` expansion): bit `j` of row `i` of the full
parity submatrix, obtained by cyclically right-rotating the compact row of
row-block `i / M` by `i % M` positions within each sub-block. -/
def rowBit (G : CodeShape) (i j : Nat) : Bool :=
  let w := subW G
  let a := (i % G.M) % w
  ((G.compact.getD (i / G.M) []).getD (j / w * w + ((j % w) + w - a) % w) false)

/-- Row `i` of the expanded generator's parity submatrix, as `r` bits. -/
def expandRow (G : CodeShape) (i : Nat) : List Bool :=
  (List.range G.r).map fun j => rowBit G i j

/-- Modelled from the spec (§4.3, missing `LDPCCode::init_generator`):
the expanded dense generator parity submatrix, `k` rows of `r` bits. -/
def init_generator (G : CodeShape) : List (List Bool) :=
  (List.range G.k).map fun i => expandRow G i

/-- Modelled from the spec (§4.4, missing `LDPCCode::encode_small`): each
parity bit is derived one at a time directly from the compact generator,
XOR-ing the row bits selected by the set data bits. -/
def parity_small (G : CodeShape) (d : List Bool) : List Bool :=
  (List.range G.r).map fun j =>
    (List.range G.k).foldl (fun a i => xor a (d.getD i false && rowBit G i j)) false

/-- Modelled from the spec (§4.4): the low-memory encoder; the output is the
dataword followed by the parity bits (systematic form). -/
def encode_small (G : CodeShape) (d : List Bool) : List Bool :=
  d ++ parity_small G d

/-- XOR of two bit vectors, used for generator row accumulation. -/
def zipXor (a b : List Bool) : List Bool :=
  List.zipWith xor a b

/-- Modelled from the spec (§4.5, missing `LDPCCode::encode_fast`): for each
set data bit `i`, XOR row `i` of the expanded generator into the parity
accumulator. -/
def parity_fast (G : CodeShape) (d : List Bool) (g : List (List Bool)) : List Bool :=
  (List.range G.k).foldl
    (fun acc i => if d.getD i false then zipXor acc (g.getD i []) else acc)
    (List.replicate G.r false)

/-- Modelled from the spec (§4.5): the fast encoder; data is copied into the
systematic prefix and the accumulated parity follows. -/
def encode_fast (G : CodeShape) (d : List Bool) (g : List (List Bool)) : List Bool :=
  d ++ parity_fast G d g

/-- The dataword with exactly bit `i` set, as `k` bits. -/
def unitBits (k i : Nat) : List Bool :=
  (List.range k).map fun t => decide (t = i)

/-- Row `i` of the full systematic generator: the unit dataword followed by
row `i` of the expanded parity submatrix. -/
def fullRow (G : CodeShape) (i : Nat) : List Bool :=
  unitBits G.k i ++ expandRow G i

/-- The XOR combination of the full systematic generator rows selected by
the set bits of the dataword `d`; linear-algebra view of encoding. -/
def combo (G : CodeShape) (d : List Bool) : List Bool :=
  (List.range G.k).foldl
    (fun acc i => if d.getD i false then zipXor acc (fullRow G i) else acc)
    (List.replicate (G.k + G.r) false)

/-- Modelled from the spec (§3 "Sparse parity representation"): the variable
indices of check `c`, read from the CSR-style arrays as
`ci[cs[c]..cs[c+1]]`. -/
def checkRow (ci cs : List Nat) (c : Nat) : List Nat :=
  (ci.drop (cs.getD c 0)).take (cs.getD (c + 1) 0 - cs.getD c 0)

/-- Parity of one check: the XOR of the word's bits at the check's variable
indices (out-of-range indices read as zero bits). -/
def checkParity (w : List Bool) (row : List Nat) : Bool :=
  row.foldl (fun a v => xor a (w.getD v false)) false

/-- All `nc` parity checks of `(ci, cs)` are satisfied by the word `w`. -/
def checksOK (ci cs : List Nat) (nc : Nat) (w : List Bool) : Bool :=
  (List.range nc).all fun c => !(checkParity w (checkRow ci cs c))

/-- Modelled from the spec (§4.2, §4.3, missing
`codes::compact_parity_checks`): one sub-block descriptor of the compact
parity-check prototype: the zero block, a cyclically shifted `M`-by-`M`
identity block (`shift 0` is the identity), or a sum of shifted identities
whose colliding entries cancel modulo 2. -/
inductive SubBlock where
  | zero : SubBlock
  | shift (s : Nat) : SubBlock
  | sums (l : List Nat) : SubBlock

/-- Modelled from the spec (§4.3 "Sparse parity expansion"): the in-block
column indices contributed by one block descriptor on in-block row `i`. -/
def blockEntries (M i : Nat) : SubBlock → List Nat
  | SubBlock.zero => []
  | SubBlock.shift s => [(i + s) % M]
  | SubBlock.sums l =>
      (List.range M).filter fun c => (l.map fun s => (i + s) % M).count c % 2 = 1

/-- Modelled from the spec (§4.3): the sorted variable indices of one parity
check, walking the block descriptors of one block-row in column order. -/
def protoRow (M : Nat) (blocks : List SubBlock) (i : Nat) : List Nat :=
  blocks.enum.flatMap fun p => (blockEntries M i p.2).map fun e => p.1 * M + e

/-- Modelled from the spec (§4.3): the adjacency list of every check,
expanding the prototype grid `proto` with block size `M`. -/
def protoChecks (proto : List (List SubBlock)) (M : Nat) : List (List Nat) :=
  (List.range (proto.length * M)).map fun c => protoRow M (proto.getD (c / M) []) (c % M)

/-- Starts array of a CSR representation: `cs[c]` is the total length of the
first `c` rows. -/
def csOf (rows : List (List Nat)) : List Nat :=
  (List.range (rows.length + 1)).map fun c => ((rows.take c).map List.length).sum

/-- Modelled from the spec (§6, missing
`LDPCCode::init_sparse_paritycheck_checks`): the `(ci, cs)` arrays. -/
def init_sparse_paritycheck_checks (proto : List (List SubBlock)) (M : Nat) :
    List Nat × List Nat :=
  ((protoChecks proto M).flatten, csOf (protoChecks proto M))

/-- Modelled from the spec (§4.3 "Sparse parity expansion (vi/vs)"): the
checks touching variable `v`, produced by the counting-and-placement
transpose of the check rows; a variable occurring `t` times in a check row
receives that check `t` times. -/
def colOf (rows : List (List Nat)) (v : Nat) : List Nat :=
  (List.range rows.length).flatMap fun c => List.replicate ((rows.getD c []).count v) c

/-- The per-variable adjacency lists of the transposed representation. -/
def varRows (rows : List (List Nat)) (nv : Nat) : List (List Nat) :=
  (List.range nv).map fun v => colOf rows v

/-- Modelled from the spec (§6, missing `LDPCCode::init_sparse_paritycheck`):
the four arrays `(ci, cs, vi, vs)`; `vi`/`vs` are produced by transposing
`(ci, cs)` over `W * M` variables. -/
def init_sparse_paritycheck (proto : List (List SubBlock)) (M W : Nat) :
    List Nat × List Nat × List Nat × List Nat :=
  let rows := protoChecks proto M
  let cols := varRows rows (W * M)
  (rows.flatten, csOf rows, cols.flatten, csOf cols)

/-- The multiset of (check, variable) Tanner-graph edges read from
`(ci, cs)` with `nc` checks. -/
def edgesC (ci cs : List Nat) (nc : Nat) : List (Nat × Nat) :=
  (List.range nc).flatMap fun c => (checkRow ci cs c).map fun v => (c, v)

/-- The multiset of (check, variable) Tanner-graph edges read from
`(vi, vs)` with `nv` variables. -/
def edgesV (vi vs : List Nat) (nv : Nat) : List (Nat × Nat) :=
  (List.range nv).flatMap fun v => (checkRow vi vs v).map fun c => (c, v)

/-- Modelled from the spec (§4.6 "Erasure prepass", missing
`LDPCCode::decode_bf`): one check of the erasure prepass.  A check whose
variables contain exactly one erasure determines that erased bit as the XOR
of its known bits, and the erasure mark is cleared. -/
def prepassCheck (w e : List Bool) (row : List Nat) : List Bool × List Bool :=
  match row.filter (fun v => e.getD v false) with
  | [v] =>
      let bit := (row.filter fun u => !(e.getD u false)).foldl
        (fun a u => xor a (w.getD u false)) false
      (w.set v bit, e.set v false)
  | _ => (w, e)

/-- One scan of the erasure prepass over all checks, in order. -/
def prepassScan (rows : List (List Nat)) (st : List Bool × List Bool) :
    List Bool × List Bool :=
  rows.foldl (fun st row => prepassCheck st.1 st.2 row) st

/-- Modelled from the spec (§4.6): the erasure prepass iterates scans until a
scan resolves nothing (fixpoint) or the fuel — one more than the erasure
count — runs out. -/
def prepass (rows : List (List Nat)) : Nat → List Bool × List Bool → List Bool × List Bool
  | 0, st => st
  | fuel + 1, st =>
      let st' := prepassScan rows st
      if st' = st then st else prepass rows fuel st'

/-- Modelled from the spec (§4.6 step 2): the number of currently
unsatisfied checks touching variable `v`. -/
def flipScore (ci cs : List Nat) (nc : Nat) (w : List Bool) (v : Nat) : Nat :=
  ((List.range nc).filter fun c =>
    checkParity w (checkRow ci cs c) && (checkRow ci cs c).contains v).length

/-- The maximal unsatisfied-check count over the `nv` variables. -/
def maxScore (ci cs : List Nat) (nc nv : Nat) (w : List Bool) : Nat :=
  (List.range nv).foldl (fun m v => max m (flipScore ci cs nc w v)) 0

/-- Modelled from the spec (§4.6 step 3): flip every variable whose
unsatisfied-check count is maximal. -/
def bfFlip (ci cs : List Nat) (nc nv : Nat) (w : List Bool) : List Bool :=
  let mc := maxScore ci cs nc nv w
  (List.range nv).map fun v =>
    if flipScore ci cs nc w v = mc then !(w.getD v false) else w.getD v false

/-- Modelled from the spec (§4.6 "Main loop", missing `LDPCCode::decode_bf`):
up to the iteration cap, terminate successfully when all checks are
satisfied, otherwise flip the maximally-complained-about variables when the
maximal count reaches the threshold, or terminate unsuccessfully. -/
def bfLoop (ci cs : List Nat) (nc nv thresh : Nat) :
    Nat → List Bool → Nat → List Bool × Bool × Nat
  | 0, w, it => (w, false, it)
  | fuel + 1, w, it =>
      if checksOK ci cs nc w then (w, true, it)
      else
        let mc := maxScore ci cs nc nv w
        if mc < thresh then (w, false, it)
        else bfLoop ci cs nc nv thresh fuel (bfFlip ci cs nc nv w) (it + 1)

/-- Modelled from the spec (§4.6, missing `LDPCCode::decode_bf`), up to
output packing: extend the received word with `p` erased placeholder bits,
run the erasure prepass, then the bit-flipping loop; returns the final
internal word together with the convergence flag and iteration count. -/
def decode_bf_core (ci cs : List Nat) (nc thresh cap p : Nat) (rx : List Bool) :
    List Bool × Bool × Nat :=
  let w0 := rx ++ List.replicate p false
  let e0 := List.replicate rx.length false ++ List.replicate p true
  let rows := (List.range nc).map fun c => checkRow ci cs c
  let st := prepass rows (p + 1) (w0, e0)
  bfLoop ci cs nc (rx.length + p) thresh cap st.1 0

/-- Modelled from the spec (§4.6, §7): `decode_bf` returns the first
`outBits` bits of the final internal hard-decision word, plus the
(converged, iterations) status — never an error. -/
def decode_bf (ci cs : List Nat) (nc thresh cap p outBits : Nat) (rx : List Bool) :
    List Nat × Bool × Nat :=
  let r := decode_bf_core ci cs nc thresh cap p rx
  (bytesOfBits (r.1.take outBits), r.2.1, r.2.2)

/-- Modelled from the spec (§4.7, §7): an idealized single-precision float
soft input: a finite signed value, a NaN, or a signed infinity. -/
inductive FloatV where
  | fin (x : Int) : FloatV
  | nan : FloatV
  | inf (neg : Bool) : FloatV

/-- Modelled from the spec (§7 "Floating-point NaN/Inf in soft input is
treated as unknown via clamping to zero"): the value actually fed to the
message-passing decoder. -/
def clampI : FloatV → Int
  | FloatV.fin x => x
  | FloatV.nan => 0
  | FloatV.inf _ => 0

/-- Sign of a soft value; zero counts as positive (spec §4.7 "treats a zero
magnitude as positive sign"). -/
def sgn (x : Int) : Int := if x < 0 then -1 else 1

/-- One step of the running (minimum, second-minimum) computation over the
incoming message magnitudes. -/
def m1m2step (p : Nat × Nat) (x : Nat) : Nat × Nat :=
  if x < p.1 then (x, p.1) else (p.1, min p.2 x)

/-- One step of the single-pass check scan: accumulate the sign product and
the two smallest magnitudes. -/
def scanStep (st : Int × Nat × Nat) (x : Int) : Int × Nat × Nat :=
  (st.1 * sgn x, m1m2step st.2 x.natAbs)

/-- Modelled from the spec (§4.7 step 1, missing `LDPCCode::decode_mp`):
one pass over the incoming messages of a check, computing the product of
signs, the minimum magnitude and the second-minimum magnitude. -/
def checkScan : List Int → Int × Nat × Nat
  | [] => (1, 0, 0)
  | [x] => (sgn x, x.natAbs, x.natAbs)
  | x :: y :: rest =>
      rest.foldl scanStep (sgn x * sgn y, min x.natAbs y.natAbs, max x.natAbs y.natAbs)

/-- Modelled from the spec (§4.7 step 1): the outgoing check message toward
an edge whose incoming value is `x`: magnitude `m1` unless `|x| = m1`, in
which case `m2`; sign `S * sgn x`. -/
def checkMsg (ms : List Int) (x : Int) : Int :=
  (checkScan ms).1 * sgn x *
    ((if x.natAbs ≠ (checkScan ms).2.1 then (checkScan ms).2.1 else (checkScan ms).2.2
      : Nat) : Int)

/-- The incoming variable-to-check messages of check `c`. -/
def incoming (ci cs : List Nat) (vv : Nat → Nat → Int) (c : Nat) : List Int :=
  (checkRow ci cs c).map fun v => vv v c

/-- Modelled from the spec (§4.7 step 1): the check-to-variable message
`u_cv[c → v]` computed by the check-node update from the current
variable-to-check messages `vv`. -/
def ucv (ci cs : List Nat) (vv : Nat → Nat → Int) (c v : Nat) : Int :=
  checkMsg (incoming ci cs vv c) (vv v c)

/-- Modelled from the spec (§4.7 step 2): the a-posteriori total of
variable `v`: its channel LLR plus all incoming check messages. -/
def mpTotal (ci cs vi vs : List Nat) (llr : Nat → Int) (vv : Nat → Nat → Int)
    (v : Nat) : Int :=
  llr v + ((checkRow vi vs v).map fun c => ucv ci cs vv c v).sum

/-- Modelled from the spec (§4.7 "Message schedule", missing
`LDPCCode::decode_mp`): the flooding iteration.  Each round performs the
check update, the variable update with hard decisions `total < 0`, then the
parity check, terminating successfully when all checks are satisfied. -/
def mpLoop (ci cs vi vs : List Nat) (nc nv : Nat) (llr : Nat → Int) :
    Nat → (Nat → Nat → Int) → List Bool → Nat → List Bool × Bool × Nat
  | 0, _, hard, it => (hard, false, it)
  | fuel + 1, vv, _, it =>
      let hard := (List.range nv).map fun v => decide (mpTotal ci cs vi vs llr vv v < 0)
      if checksOK ci cs nc hard then (hard, true, it + 1)
      else
        mpLoop ci cs vi vs nc nv llr fuel
          (fun v c => mpTotal ci cs vi vs llr vv v - ucv ci cs vv c v) hard (it + 1)

/-- Modelled from the spec (§4.7): run the message-passing decoder from a
given channel-LLR assignment: `v_vc` is initialized from the channel LLRs
and the hard decisions start from the LLR signs. -/
def mpCore (ci cs vi vs : List Nat) (nc nv cap : Nat) (llr : Nat → Int) :
    List Bool × Bool × Nat :=
  mpLoop ci cs vi vs nc nv llr cap (fun v _ => llr v)
    ((List.range nv).map fun v => decide (llr v < 0)) 0

/-- Pack the final hard decisions of `mpCore` into the output bytes with
the (converged, iterations) status. -/
def mpRun (ci cs vi vs : List Nat) (nc nv cap outBits : Nat) (llr : Nat → Int) :
    List Nat × Bool × Nat :=
  let r := mpCore ci cs vi vs nc nv cap llr
  (bytesOfBits (r.1.take outBits), r.2.1, r.2.2)

/-- Modelled from the spec (§4.7, §7, missing `LDPCCode::decode_mp`): the
soft-decision decoder.  Soft inputs are clamped (NaN/Inf read as zero), the
`p` punctured variables beyond the received length read as zero LLR, and
the result is the packed hard decisions with the (converged, iterations)
status. -/
def decode_mp (ci cs vi vs : List Nat) (nc nv cap outBits : Nat)
    (inputs : List FloatV) : List Nat × Bool × Nat :=
  mpRun ci cs vi vs nc nv cap outBits fun v => clampI (inputs.getD v (FloatV.fin 0))

/-- Replace every non-finite soft input by an exact zero. -/
def sanitizeF : FloatV → FloatV
  | FloatV.fin x => FloatV.fin x
  | FloatV.nan => FloatV.fin 0
  | FloatV.inf _ => FloatV.fin 0

/-- Modelled from the spec (§3 "Code identifier", missing `codes` module):
the nine supported codes. -/
inductive LDPCCode where
  | TC128 | TC256 | TC512
  | TM1280 | TM1536 | TM2048
  | TM5120 | TM6144 | TM8192

/-- Modelled from the spec (§3, missing `LDPCCode::n`): the codeword length
in bits; the name of each variant is its `n`. -/
def n : LDPCCode → Nat
  | LDPCCode.TC128 => 128
  | LDPCCode.TC256 => 256
  | LDPCCode.TC512 => 512
  | LDPCCode.TM1280 => 1280
  | LDPCCode.TM1536 => 1536
  | LDPCCode.TM2048 => 2048
  | LDPCCode.TM5120 => 5120
  | LDPCCode.TM6144 => 6144
  | LDPCCode.TM8192 => 8192

/-- Modelled from the spec (§3, missing `LDPCCode::k`): the dataword length
in bits: the TC codes are rate 1/2, the TM codes have k = 1024 or 4096. -/
def k : LDPCCode → Nat
  | LDPCCode.TC128 => 64
  | LDPCCode.TC256 => 128
  | LDPCCode.TC512 => 256
  | LDPCCode.TM1280 => 1024
  | LDPCCode.TM1536 => 1024
  | LDPCCode.TM2048 => 1024
  | LDPCCode.TM5120 => 4096
  | LDPCCode.TM6144 => 4096
  | LDPCCode.TM8192 => 4096

/-- Modelled from the spec (§3, missing `LDPCCode::punctured_bits`): the
punctured parity bits, zero for TC; for TM codes the values are fixed by the
`lib.rs` decoder size table via `output = (n + p) / 8`. -/
def punctured_bits : LDPCCode → Nat
  | LDPCCode.TC128 => 0
  | LDPCCode.TC256 => 0
  | LDPCCode.TC512 => 0
  | LDPCCode.TM1280 => 128
  | LDPCCode.TM1536 => 256
  | LDPCCode.TM2048 => 512
  | LDPCCode.TM5120 => 512
  | LDPCCode.TM6144 => 1024
  | LDPCCode.TM8192 => 2048

/-- Modelled from the spec (§4.1, missing `LDPCCode::output_len`): decoder
output length in bytes, `(n + p) / 8`. -/
def output_len (c : LDPCCode) : Nat := (n c + punctured_bits c) / 8

/-- Modelled from the spec (§4.1, missing `LDPCCode::generator_len`): length
of the expanded generator as a `u32` array, `k * (n - k) / 32`. -/
def generator_len (c : LDPCCode) : Nat := k c * (n c - k c) / 32

/-- A small concrete code shape (k = 8, r = 8, M = 8, one sub-block, compact
row `e0`) whose expanded generator is the identity; used to instantiate the
conditional theorems below on explicit data. -/
def demoShape : CodeShape :=
  ⟨8, 8, 8, 1, [[true, false, false, false, false, false, false, false]]⟩

/-- Concrete `ci` array for the code whose check `c` is
`word[c] XOR word[8+c] = 0`. -/
def demoCi : List Nat := [0, 8, 1, 9, 2, 10, 3, 11, 4, 12, 5, 13, 6, 14, 7, 15]

/-- Concrete `cs` array matching `demoCi`: two variables per check. -/
def demoCs : List Nat := [0, 2, 4, 6, 8, 10, 12, 14, 16]

/-- The size rows tabulated in the `lib.rs` crate documentation (encoder and
decoder tables): input bytes `k/8`, codeword bytes `n/8`, expanded generator
bytes `k*(n-k)/8`, decoder output bytes `(n+p)/8`, and soft-input bytes
`n*4`. -/
def doc_sizes : LDPCCode → Nat × Nat × Nat × Nat × Nat
  | LDPCCode.TC128 => (8, 16, 512, 16, 512)
  | LDPCCode.TC256 => (16, 32, 2048, 32, 1024)
  | LDPCCode.TC512 => (32, 64, 8192, 64, 2048)
  | LDPCCode.TM1280 => (128, 160, 32768, 176, 5120)
  | LDPCCode.TM1536 => (128, 192, 65536, 224, 6144)
  | LDPCCode.TM2048 => (128, 256, 131072, 320, 8192)
  | LDPCCode.TM5120 => (512, 640, 524288, 704, 20480)
  | LDPCCode.TM6144 => (512, 768, 1048576, 896, 24576)
  | LDPCCode.TM8192 => (512, 1024, 2097152, 1280, 32768)

/-! ## Theorems -/

theorem byteBits_eq (b : Nat) :
    byteBits b = [b.testBit 7, b.testBit 6, b.testBit 5, b.testBit 4,
      b.testBit 3, b.testBit 2, b.testBit 1, b.testBit 0] := rfl

theorem bitsToByte_byteBits : ∀ b : Nat, b < 256 → bitsToByte (byteBits b) = b := by decide

theorem bytesOfBits_byte (b : Nat) (rest : List Bool) :
    bytesOfBits (byteBits b ++ rest) = bitsToByte (byteBits b) :: bytesOfBits rest := by
  rw [byteBits_eq]
  rfl

theorem bytesOfBits_take (bs : List Nat) (t : List Bool) (hb : ∀ b ∈ bs, b < 256) :
    (bytesOfBits (bitsOfBytes bs ++ t)).take bs.length = bs := by
  induction bs with
  | nil => simp
  | cons b bs ih =>
      have hb0 : b < 256 := hb b (List.mem_cons_self b bs)
      have hbs : ∀ x ∈ bs, x < 256 := fun x hx => hb x (List.mem_cons_of_mem _ hx)
      have h1 : bitsOfBytes (b :: bs) = byteBits b ++ bitsOfBytes bs := by
        simp [bitsOfBytes]
      rw [h1, List.append_assoc, bytesOfBits_byte, bitsToByte_byteBits b hb0]
      simpa using ih hbs

/-- Claim C10: for each of the nine codes, the size-query functions return
exactly the values tabulated in the crate documentation in `lib.rs`:
input bytes `k/8`, codeword bytes `n/8`, expanded generator bytes
`k*(n-k)/8` (four bytes per `generator_len` 32-bit word), decoder output
bytes `output_len = (n+p)/8`, and soft-input bytes `4*n`; in particular the
TC128 codeword is 16 bytes, its expanded generator is 512 bytes
(`generator_len = 128` words), its decoder output is 16 bytes, and the
TM1280 decoder output is 176 bytes. -/
theorem c10_size_queries :
    ∀ c : LDPCCode,
      (k c / 8, n c / 8, k c * (n c - k c) / 8, output_len c, 4 * n c) = doc_sizes c ∧
      4 * generator_len c = k c * (n c - k c) / 8 := by
  intro c
  cases c <;> exact ⟨rfl, rfl⟩

theorem zipXor_length (a b : List Bool) : (zipXor a b).length = min a.length b.length :=
  List.length_zipWith xor a b

theorem zipXor_getD (a b : List Bool) (h : a.length = b.length) (v : Nat) :
    (zipXor a b).getD v false = xor (a.getD v false) (b.getD v false) := by
  by_cases hv : v < a.length
  · have hz : v < (zipXor a b).length := by
      rw [zipXor_length, ← h, Nat.min_self]; exact hv
    rw [List.getD_eq_getElem _ _ hz, List.getD_eq_getElem _ _ hv,
      List.getD_eq_getElem _ _ (h ▸ hv)]
    exact List.getElem_zipWith
  · have hv' : a.length ≤ v := Nat.le_of_not_lt hv
    rw [List.getD_eq_default _ _ (by rw [zipXor_length, ← h, Nat.min_self]; exact hv'),
      List.getD_eq_default _ _ hv', List.getD_eq_default _ _ (h ▸ hv')]
    rfl

theorem foldl_zipXor_getD (g : Nat → List Bool) (P : Nat → Bool) :
    ∀ (l : List Nat) (a : List Bool), (∀ i ∈ l, (g i).length = a.length) → ∀ v,
      (l.foldl (fun acc i => if P i then zipXor acc (g i) else acc) a).getD v false
        = l.foldl (fun b i => xor b (P i && (g i).getD v false)) (a.getD v false) := by
  intro l
  induction l with
  | nil => intro a _ v; rfl
  | cons i t ih =>
      intro a hg v
      have hgi : (g i).length = a.length := hg i (List.mem_cons_self i t)
      have hlen : (if P i then zipXor a (g i) else a).length = a.length := by
        by_cases hp : P i
        · simp [hp, zipXor_length, hgi]
        · simp [hp]
      have hstep : (if P i then zipXor a (g i) else a).getD v false
          = xor (a.getD v false) (P i && (g i).getD v false) := by
        by_cases hp : P i
        · simp only [hp, if_true, Bool.true_and]
          exact zipXor_getD a (g i) hgi.symm v
        · simp [hp]
      simp only [List.foldl_cons]
      rw [ih _ (fun j hj => by rw [hlen]; exact hg j (List.mem_cons_of_mem _ hj)) v, hstep]

theorem foldl_zipXor_length (g : Nat → List Bool) (P : Nat → Bool) :
    ∀ (l : List Nat) (a : List Bool), (∀ i ∈ l, (g i).length = a.length) →
      (l.foldl (fun acc i => if P i then zipXor acc (g i) else acc) a).length = a.length := by
  intro l
  induction l with
  | nil => intro a _; rfl
  | cons i t ih =>
      intro a hg
      have hgi : (g i).length = a.length := hg i (List.mem_cons_self i t)
      have hlen : (if P i then zipXor a (g i) else a).length = a.length := by
        by_cases hp : P i
        · simp [hp, zipXor_length, hgi]
        · simp [hp]
      simp only [List.foldl_cons]
      rw [ih _ (fun j hj => by rw [hlen]; exact hg j (List.mem_cons_of_mem _ hj)), hlen]

theorem init_generator_row_length (G : CodeShape) :
    ∀ i ∈ List.range G.k, ((init_generator G).getD i []).length = G.r := by
  intro i hi
  rw [List.mem_range] at hi
  have : (init_generator G).getD i [] = expandRow G i := by
    have hlen : i < (init_generator G).length := by simp [init_generator, hi]
    rw [List.getD_eq_getElem _ _ hlen]
    simp [init_generator]
  rw [this]
  simp [expandRow]

theorem replicate_getD_false (r v : Nat) : (List.replicate r false).getD v false = false := by
  by_cases hv : v < r
  · rw [List.getD_eq_getElem _ _ (by simpa using hv)]
    simp
  · rw [List.getD_eq_default _ _ (by simpa using Nat.le_of_not_lt hv)]

theorem parity_fast_length (G : CodeShape) (d : List Bool) (g : List (List Bool))
    (hg : ∀ i ∈ List.range G.k, (g.getD i []).length = G.r) :
    (parity_fast G d g).length = G.r := by
  have hg' : ∀ i ∈ List.range G.k,
      (g.getD i []).length = (List.replicate G.r false).length := by
    intro i hi; rw [List.length_replicate]; exact hg i hi
  have h := foldl_zipXor_length (fun i => g.getD i []) (fun i => d.getD i false)
    (List.range G.k) (List.replicate G.r false) hg'
  rw [List.length_replicate] at h
  exact h

theorem parity_fast_getD (G : CodeShape) (d : List Bool) (g : List (List Bool))
    (hg : ∀ i ∈ List.range G.k, (g.getD i []).length = G.r) (j : Nat) :
    (parity_fast G d g).getD j false
      = (List.range G.k).foldl
          (fun b i => xor b (d.getD i false && (g.getD i []).getD j false)) false := by
  have hg' : ∀ i ∈ List.range G.k,
      (g.getD i []).length = (List.replicate G.r false).length := by
    intro i hi; rw [List.length_replicate]; exact hg i hi
  have h := foldl_zipXor_getD (fun i => g.getD i []) (fun i => d.getD i false)
    (List.range G.k) (List.replicate G.r false) hg' j
  rw [replicate_getD_false] at h
  exact h

theorem encode_eq_aux (G : CodeShape) (d : List Bool) :
    encode_small G d = encode_fast G d (init_generator G) := by
  unfold encode_small encode_fast
  congr 1
  have hrows := init_generator_row_length G
  have hlenS : (parity_small G d).length = G.r := by simp [parity_small]
  have hlenF := parity_fast_length G d (init_generator G) hrows
  apply List.ext_getElem (by rw [hlenS, hlenF])
  intro j hj hj'
  have hjr : j < G.r := hlenS ▸ hj
  have h1 : (parity_small G d)[j] =
      (List.range G.k).foldl (fun a i => xor a (d.getD i false && rowBit G i j)) false := by
    simp [parity_small]
  have h2 : (parity_fast G d (init_generator G))[j] =
      (List.range G.k).foldl
        (fun b i => xor b (d.getD i false && ((init_generator G).getD i []).getD j false))
        false := by
    rw [← List.getD_eq_getElem _ false hj']
    exact parity_fast_getD G d (init_generator G) hrows j
  rw [h1, h2]
  apply List.foldl_ext
  intro a i hi
  rw [List.mem_range] at hi
  have hrow : (init_generator G).getD i [] = expandRow G i := by
    have hlen : i < (init_generator G).length := by simp [init_generator, hi]
    rw [List.getD_eq_getElem _ _ hlen]
    simp [init_generator]
  have hexp : (expandRow G i).getD j false = rowBit G i j := by
    rw [List.getD_eq_getElem _ _ (by simp [expandRow, hjr])]
    simp [expandRow]
  rw [hrow, hexp]

/-- Claim C1: for every code shape and every dataword, `encode_small`
produces, bit for bit, the same codeword as `encode_fast` applied to the
same dataword with the generator produced by `init_generator`. -/
theorem c1_encoders_agree (G : CodeShape) (d : List Bool) :
    encode_small G d = encode_fast G d (init_generator G) :=
  encode_eq_aux G d

/-- Claim C2: for every code shape and every byte dataword, the first
`k/8` bytes of the codeword produced by either encoder are byte-for-byte
the input dataword (the code is systematic). -/
theorem c2_systematic (G : CodeShape) (bs : List Nat) (hb : ∀ b ∈ bs, b < 256) :
    (bytesOfBits (encode_small G (bitsOfBytes bs))).take bs.length = bs ∧
    (bytesOfBits (encode_fast G (bitsOfBytes bs) (init_generator G))).take bs.length = bs := by
  constructor
  · exact bytesOfBits_take bs (parity_small G (bitsOfBytes bs)) hb
  · rw [← encode_eq_aux]
    exact bytesOfBits_take bs (parity_small G (bitsOfBytes bs)) hb

theorem c2_systematic_witness :
    (∀ b ∈ [0, 1, 2, 3, 4, 5, 6, 7], b < 256) ∧
    ((bytesOfBits (encode_small ⟨64, 64, 16, 4, []⟩
        (bitsOfBytes [0, 1, 2, 3, 4, 5, 6, 7]))).take 8 = [0, 1, 2, 3, 4, 5, 6, 7] ∧
      (bytesOfBits (encode_fast ⟨64, 64, 16, 4, []⟩ (bitsOfBytes [0, 1, 2, 3, 4, 5, 6, 7])
        (init_generator ⟨64, 64, 16, 4, []⟩))).take 8 = [0, 1, 2, 3, 4, 5, 6, 7]) :=
  ⟨by decide, c2_systematic ⟨64, 64, 16, 4, []⟩ [0, 1, 2, 3, 4, 5, 6, 7] (by decide)⟩

theorem foldl_xor_shift (f : Nat → Bool) :
    ∀ (l : List Nat) (a : Bool),
      l.foldl (fun x v => xor x (f v)) a = xor a (l.foldl (fun x v => xor x (f v)) false) := by
  intro l
  induction l with
  | nil => intro a; simp
  | cons v t ih =>
      intro a
      simp only [List.foldl_cons]
      rw [ih (xor a (f v)), ih (xor false (f v))]
      cases a <;> cases f v <;> simp

theorem checkParity_cons (w : List Bool) (v : Nat) (t : List Nat) :
    checkParity w (v :: t) = xor (w.getD v false) (checkParity w t) := by
  unfold checkParity
  simp only [List.foldl_cons]
  rw [foldl_xor_shift (fun u => w.getD u false) t (xor false (w.getD v false))]
  cases w.getD v false <;> simp

theorem xor_exchange (a b c d : Bool) :
    xor (xor a b) (xor c d) = xor (xor a c) (xor b d) := by
  revert a b c d; decide

theorem checkParity_zipXor (w1 w2 : List Bool) (h : w1.length = w2.length) :
    ∀ row : List Nat,
      checkParity (zipXor w1 w2) row = xor (checkParity w1 row) (checkParity w2 row) := by
  intro row
  induction row with
  | nil => rfl
  | cons v t ih =>
      rw [checkParity_cons, checkParity_cons, checkParity_cons, ih,
        zipXor_getD w1 w2 h v, xor_exchange]

theorem checkParity_replicate_false (m : Nat) (row : List Nat) :
    checkParity (List.replicate m false) row = false := by
  induction row with
  | nil => rfl
  | cons v t ih => rw [checkParity_cons, ih, replicate_getD_false]; rfl

theorem fullRow_length (G : CodeShape) (i : Nat) : (fullRow G i).length = G.k + G.r := by
  simp [fullRow, unitBits, expandRow]

theorem checkParity_combo (G : CodeShape) (d : List Bool) (row : List Nat) :
    checkParity (combo G d) row
      = (List.range G.k).foldl
          (fun a i => xor a (d.getD i false && checkParity (fullRow G i) row)) false := by
  suffices h : ∀ (l : List Nat) (acc : List Bool), acc.length = G.k + G.r →
      checkParity
        (l.foldl (fun acc i => if d.getD i false then zipXor acc (fullRow G i) else acc) acc)
        row
      = l.foldl (fun a i => xor a (d.getD i false && checkParity (fullRow G i) row))
          (checkParity acc row) by
    unfold combo
    rw [h (List.range G.k) (List.replicate (G.k + G.r) false) (by simp),
      checkParity_replicate_false]
  intro l
  induction l with
  | nil => intro acc _; rfl
  | cons i t ih =>
      intro acc hacc
      simp only [List.foldl_cons]
      have hstep : checkParity (if d.getD i false then zipXor acc (fullRow G i) else acc) row
          = xor (checkParity acc row) (d.getD i false && checkParity (fullRow G i) row) := by
        cases hdd : d.getD i false
        · simp
        · rw [if_pos rfl, Bool.true_and]
          exact checkParity_zipXor acc (fullRow G i) (by rw [hacc, fullRow_length]) row
      have hlen : (if d.getD i false then zipXor acc (fullRow G i) else acc).length
          = G.k + G.r := by
        cases hdd : d.getD i false
        · simpa using hacc
        · rw [if_pos rfl]
          simp [zipXor_length, hacc, fullRow_length]
      rw [ih _ hlen, hstep]

theorem foldl_xor_unit (vv : Nat) (g : Nat → Bool) :
    ∀ kk : Nat,
      (List.range kk).foldl (fun a t => xor a (decide (t = vv) && g t)) false
        = if vv < kk then g vv else false := by
  intro kk
  induction kk with
  | zero => simp
  | succ m ih =>
      rw [List.range_succ, List.foldl_append, ih]
      simp only [List.foldl_cons, List.foldl_nil]
      by_cases h1 : vv < m
      · have h2 : ¬(m = vv) := by omega
        simp [h1, h2, Nat.lt_succ_of_lt h1]
      · by_cases h3 : vv = m
        · subst h3
          simp [h1, Nat.lt_succ_self]
        · have h4 : ¬(m = vv) := fun h => h3 h.symm
          have h5 : ¬(vv < m + 1) := by omega
          simp [h1, h4, h5]

theorem foldl_xor_false (g : Nat → Bool) :
    ∀ l : List Nat, (∀ t ∈ l, g t = false) →
      l.foldl (fun a t => xor a (g t)) false = false := by
  intro l
  induction l with
  | nil => intro _; rfl
  | cons v t ih =>
      intro h
      simp only [List.foldl_cons, h v (List.mem_cons_self v t), Bool.xor_false]
      exact ih fun u hu => h u (List.mem_cons_of_mem _ hu)

theorem combo_getD (G : CodeShape) (d : List Bool) (v : Nat) :
    (combo G d).getD v false
      = (List.range G.k).foldl
          (fun b i => xor b (d.getD i false && (fullRow G i).getD v false)) false := by
  have hg : ∀ i ∈ List.range G.k,
      (fullRow G i).length = (List.replicate (G.k + G.r) false).length := by
    intro i _; rw [List.length_replicate, fullRow_length]
  have h := foldl_zipXor_getD (fun i => fullRow G i) (fun i => d.getD i false)
    (List.range G.k) (List.replicate (G.k + G.r) false) hg v
  rw [replicate_getD_false] at h
  exact h

theorem combo_length (G : CodeShape) (d : List Bool) : (combo G d).length = G.k + G.r := by
  have hg : ∀ i ∈ List.range G.k,
      (fullRow G i).length = (List.replicate (G.k + G.r) false).length := by
    intro i _; rw [List.length_replicate, fullRow_length]
  have h := foldl_zipXor_length (fun i => fullRow G i) (fun i => d.getD i false)
    (List.range G.k) (List.replicate (G.k + G.r) false) hg
  rw [List.length_replicate] at h
  exact h

theorem fullRow_getD_low (G : CodeShape) (i v : Nat) (hv : v < G.k) :
    (fullRow G i).getD v false = decide (v = i) := by
  have hlen : v < (fullRow G i).length := by rw [fullRow_length]; omega
  rw [List.getD_eq_getElem _ _ hlen]
  unfold fullRow
  rw [List.getElem_append_left (by simpa [unitBits] using hv)]
  simp [unitBits]

theorem fullRow_getD_high (G : CodeShape) (i v : Nat) (hv1 : G.k ≤ v) (hv2 : v < G.k + G.r) :
    (fullRow G i).getD v false = rowBit G i (v - G.k) := by
  have hlen : v < (fullRow G i).length := by rw [fullRow_length]; omega
  rw [List.getD_eq_getElem _ _ hlen]
  unfold fullRow
  rw [List.getElem_append_right (by simpa [unitBits] using hv1)]
  simp [unitBits, expandRow]

theorem encode_small_eq_combo (G : CodeShape) (d : List Bool) (hd : d.length = G.k) :
    encode_small G d = combo G d := by
  have hlenE : (encode_small G d).length = G.k + G.r := by
    simp [encode_small, parity_small, hd]
  apply List.ext_getElem (by rw [hlenE, combo_length])
  intro v hv hv'
  have hvkr : v < G.k + G.r := hlenE ▸ hv
  rw [← List.getD_eq_getElem _ false hv, ← List.getD_eq_getElem _ false hv', combo_getD]
  by_cases hvk : v < G.k
  · have hl : (encode_small G d).getD v false = d.getD v false := by
      rw [List.getD_eq_getElem _ _ hv, List.getD_eq_getElem _ _ (hd ▸ hvk)]
      unfold encode_small
      exact List.getElem_append_left (hd ▸ hvk)
    have hF := List.foldl_ext
      (fun b i => xor b (d.getD i false && (fullRow G i).getD v false))
      (fun b i => xor b (decide (i = v) && d.getD i false))
      false (l := List.range G.k)
      (by
        intro b i _
        show xor b (d.getD i false && (fullRow G i).getD v false)
          = xor b (decide (i = v) && d.getD i false)
        rw [fullRow_getD_low G i v hvk]
        congr 1
        rw [Bool.and_comm]
        congr 1
        simp only [decide_eq_decide]
        exact eq_comm)
    rw [hl, hF, foldl_xor_unit v (fun t => d.getD t false) G.k, if_pos hvk]
  · have hkv : G.k ≤ v := Nat.le_of_not_lt hvk
    have hl : (encode_small G d).getD v false
        = (List.range G.k).foldl
            (fun a i => xor a (d.getD i false && rowBit G i (v - G.k))) false := by
      rw [List.getD_eq_getElem _ _ hv]
      unfold encode_small
      rw [List.getElem_append_right (by omega : d.length ≤ v)]
      have hvr : v - d.length < (parity_small G d).length := by
        simp only [parity_small, List.length_map, List.length_range]
        omega
      simp only [parity_small]
      rw [List.getElem_map]
      rw [List.getElem_range]
      rw [hd]
    rw [hl]
    apply List.foldl_ext
    intro b i _
    rw [fullRow_getD_high G i v hkv hvkr]

theorem encode_small_unit (G : CodeShape) (i : Nat) (hi : i < G.k) :
    encode_small G (unitBits G.k i) = fullRow G i := by
  unfold encode_small fullRow
  congr 1
  apply List.ext_getElem (by simp [parity_small, expandRow])
  intro j hj hj'
  have hjr : j < G.r := by simpa [parity_small] using hj
  simp only [parity_small, expandRow, List.getElem_map, List.getElem_range]
  have hF := List.foldl_ext
    (fun a t => xor a ((unitBits G.k i).getD t false && rowBit G t j))
    (fun a t => xor a (decide (t = i) && rowBit G t j))
    false (l := List.range G.k)
    (by
      intro a t ht
      show xor a ((unitBits G.k i).getD t false && rowBit G t j)
        = xor a (decide (t = i) && rowBit G t j)
      rw [List.mem_range] at ht
      congr 2
      rw [List.getD_eq_getElem _ _ (by simpa [unitBits] using ht)]
      simp [unitBits])
  rw [hF, foldl_xor_unit i (fun t => rowBit G t j) G.k, if_pos hi]

/-- Claim C3: for every code shape whose systematic generator rows are
codewords of the sparse parity representation `(ci, cs)` — the defining
property of the CCSDS generator tables, which are not part of this source
tree — every dataword's codeword, from either encoder, satisfies all parity
checks: the XOR of its bits over every check row is zero. -/
theorem c3_codeword_in_code (G : CodeShape) (ci cs : List Nat) (nc : Nat) (d : List Bool)
    (hd : d.length = G.k)
    (hgen : ∀ i < G.k, checksOK ci cs nc (encode_small G (unitBits G.k i)) = true) :
    checksOK ci cs nc (encode_small G d) = true ∧
    checksOK ci cs nc (encode_fast G d (init_generator G)) = true := by
  have main : checksOK ci cs nc (encode_small G d) = true := by
    unfold checksOK
    rw [List.all_eq_true]
    intro c hc
    suffices hcp : checkParity (encode_small G d) (checkRow ci cs c) = false by
      rw [hcp]; rfl
    rw [encode_small_eq_combo G d hd, checkParity_combo]
    apply foldl_xor_false
    intro t ht
    rw [List.mem_range] at ht
    have h1 := hgen t ht
    unfold checksOK at h1
    rw [List.all_eq_true] at h1
    have h2 := h1 c hc
    rw [encode_small_unit G t ht] at h2
    have h3 : checkParity (fullRow G t) (checkRow ci cs c) = false := by
      revert h2
      cases checkParity (fullRow G t) (checkRow ci cs c) <;> simp
    rw [h3, Bool.and_false]
  exact ⟨main, by rw [← encode_eq_aux]; exact main⟩

theorem c3_witness :
    ((bitsOfBytes [60]).length = demoShape.k ∧
      (∀ i < demoShape.k, checksOK demoCi demoCs 8
        (encode_small demoShape (unitBits demoShape.k i)) = true)) ∧
    (checksOK demoCi demoCs 8 (encode_small demoShape (bitsOfBytes [60])) = true ∧
      checksOK demoCi demoCs 8
        (encode_fast demoShape (bitsOfBytes [60]) (init_generator demoShape)) = true) :=
  ⟨⟨by decide, by decide⟩,
    c3_codeword_in_code demoShape demoCi demoCs 8 (bitsOfBytes [60])
      (by decide) (by decide)⟩

theorem set_getD_ne (l : List Bool) (u : Nat) (x : Bool) (v : Nat) (h : u ≠ v) :
    (l.set u x).getD v false = l.getD v false := by
  by_cases hvl : v < l.length
  · rw [List.getD_eq_getElem _ _ (by simpa using hvl), List.getD_eq_getElem _ _ hvl]
    exact List.getElem_set_ne h _
  · rw [List.getD_eq_default _ _ (by simpa using Nat.le_of_not_lt hvl),
      List.getD_eq_default _ _ (Nat.le_of_not_lt hvl)]

theorem prepassCheck_pres (w e : List Bool) (row : List Nat) (v : Nat)
    (hv : e.getD v false = false) :
    (prepassCheck w e row).1.getD v false = w.getD v false ∧
    (prepassCheck w e row).2.getD v false = false := by
  unfold prepassCheck
  split
  next u heq =>
      have hu : e.getD u false = true := by
        have hmem : u ∈ row.filter (fun x => e.getD x false) := by
          rw [heq]; exact List.mem_cons_self u []
        simpa using (List.mem_filter.mp hmem).2
      have hne : u ≠ v := by
        intro h; rw [h, hv] at hu; cases hu
      exact ⟨set_getD_ne w u _ v hne, by rw [set_getD_ne e u false v hne]; exact hv⟩
  next => exact ⟨rfl, hv⟩

theorem prepassCheck_len (w e : List Bool) (row : List Nat) :
    (prepassCheck w e row).1.length = w.length ∧
    (prepassCheck w e row).2.length = e.length := by
  unfold prepassCheck
  split
  next u heq => exact ⟨List.length_set .., List.length_set ..⟩
  next => exact ⟨rfl, rfl⟩

theorem prepassScan_pres (rows : List (List Nat)) :
    ∀ (st : List Bool × List Bool) (v : Nat), st.2.getD v false = false →
      (prepassScan rows st).1.getD v false = st.1.getD v false ∧
      (prepassScan rows st).2.getD v false = false := by
  induction rows with
  | nil => intro st v h; exact ⟨rfl, h⟩
  | cons r t ih =>
      intro st v h
      have hstep := prepassCheck_pres st.1 st.2 r v h
      have htail := ih (prepassCheck st.1 st.2 r) v hstep.2
      unfold prepassScan at htail ⊢
      simp only [List.foldl_cons]
      exact ⟨htail.1.trans hstep.1, htail.2⟩

theorem prepassScan_len (rows : List (List Nat)) :
    ∀ st : List Bool × List Bool,
      (prepassScan rows st).1.length = st.1.length ∧
      (prepassScan rows st).2.length = st.2.length := by
  induction rows with
  | nil => intro st; exact ⟨rfl, rfl⟩
  | cons r t ih =>
      intro st
      have hstep := prepassCheck_len st.1 st.2 r
      have htail := ih (prepassCheck st.1 st.2 r)
      unfold prepassScan at htail ⊢
      simp only [List.foldl_cons]
      exact ⟨htail.1.trans hstep.1, htail.2.trans hstep.2⟩

theorem prepass_pres (rows : List (List Nat)) :
    ∀ (fuel : Nat) (st : List Bool × List Bool) (v : Nat), st.2.getD v false = false →
      (prepass rows fuel st).1.getD v false = st.1.getD v false ∧
      (prepass rows fuel st).2.getD v false = false := by
  intro fuel
  induction fuel with
  | zero => intro st v h; exact ⟨rfl, h⟩
  | succ f ih =>
      intro st v h
      have hgoal : prepass rows (f + 1) st
          = if prepassScan rows st = st then st else prepass rows f (prepassScan rows st) :=
        rfl
      rw [hgoal]
      by_cases hif : prepassScan rows st = st
      · rw [if_pos hif]; exact ⟨rfl, h⟩
      · rw [if_neg hif]
        have hstep := prepassScan_pres rows st v h
        have htail := ih (prepassScan rows st) v hstep.2
        exact ⟨htail.1.trans hstep.1, htail.2⟩

theorem prepass_len (rows : List (List Nat)) :
    ∀ (fuel : Nat) (st : List Bool × List Bool),
      (prepass rows fuel st).1.length = st.1.length ∧
      (prepass rows fuel st).2.length = st.2.length := by
  intro fuel
  induction fuel with
  | zero => intro st; exact ⟨rfl, rfl⟩
  | succ f ih =>
      intro st
      have hgoal : prepass rows (f + 1) st
          = if prepassScan rows st = st then st else prepass rows f (prepassScan rows st) :=
        rfl
      rw [hgoal]
      by_cases hif : prepassScan rows st = st
      · rw [if_pos hif]; exact ⟨rfl, rfl⟩
      · rw [if_neg hif]
        have hstep := prepassScan_len rows st
        have htail := ih (prepassScan rows st)
        exact ⟨htail.1.trans hstep.1, htail.2.trans hstep.2⟩

theorem bfLoop_converged (ci cs : List Nat) (nc nv thresh cap : Nat) (w : List Bool)
    (it : Nat) (h : checksOK ci cs nc w = true) (hcap : 1 ≤ cap) :
    bfLoop ci cs nc nv thresh cap w it = (w, true, it) := by
  cases cap with
  | zero => omega
  | succ c =>
      unfold bfLoop
      rw [if_pos h]

theorem bitsOfBytes_length (bs : List Nat) : (bitsOfBytes bs).length = 8 * bs.length := by
  induction bs with
  | nil => rfl
  | cons b t ih =>
      have : bitsOfBytes (b :: t) = byteBits b ++ bitsOfBytes t := by simp [bitsOfBytes]
      rw [this, List.length_append, ih, byteBits_eq]
      simp only [List.length_cons, List.length_nil]
      omega

theorem encode_small_length (G : CodeShape) (d : List Bool) :
    (encode_small G d).length = d.length + G.r := by
  simp [encode_small, parity_small]

theorem getD_append_low (a b : List Bool) (v : Nat) (h : v < a.length) :
    (a ++ b).getD v false = a.getD v false := by
  rw [List.getD_eq_getElem _ _ (by rw [List.length_append]; omega),
    List.getD_eq_getElem _ _ h]
  exact List.getElem_append_left h

theorem take_getD (l : List Bool) (m v : Nat) (hv : v < (l.take m).length) :
    (l.take m).getD v false = l.getD v false := by
  have hvl : v < l.length := by
    rw [List.length_take] at hv
    exact Nat.lt_of_lt_of_le hv (Nat.min_le_right m l.length)
  rw [List.getD_eq_getElem _ _ hv, List.getD_eq_getElem _ _ hvl]
  exact List.getElem_take l

/-- Claim C4: for every code shape whose encoded words satisfy all parity
checks after the erasure prepass (true for an uncorrupted codeword whenever
the erasure prepass can resolve the punctured bits — automatic for the
unpunctured TC codes), decoding the uncorrupted transmitted word with
`decode_bf` returns the original dataword in the first `k/8` output bytes
with `converged = true`. -/
theorem c4_decode_bf_roundtrip (G : CodeShape) (ci cs : List Nat)
    (nc thresh cap p outBits : Nat) (bs : List Nat) (hb : ∀ b ∈ bs, b < 256)
    (hk : 8 * bs.length = G.k) (hp : p ≤ G.r) (hcap : 1 ≤ cap) (hout : G.k ≤ outBits)
    (hok : checksOK ci cs nc
      (prepass ((List.range nc).map fun c => checkRow ci cs c) (p + 1)
        ((encode_small G (bitsOfBytes bs)).take (G.k + G.r - p) ++ List.replicate p false,
          List.replicate
            ((encode_small G (bitsOfBytes bs)).take (G.k + G.r - p)).length false
            ++ List.replicate p true)).1 = true) :
    (decode_bf ci cs nc thresh cap p outBits
        ((encode_small G (bitsOfBytes bs)).take (G.k + G.r - p))).2.1 = true ∧
    ((decode_bf ci cs nc thresh cap p outBits
        ((encode_small G (bitsOfBytes bs)).take (G.k + G.r - p))).1).take bs.length
      = bs := by
  have hdlen : (bitsOfBytes bs).length = G.k := by rw [bitsOfBytes_length]; omega
  have hcw : (encode_small G (bitsOfBytes bs)).length = G.k + G.r := by
    rw [encode_small_length, hdlen]
  have hrx : ((encode_small G (bitsOfBytes bs)).take (G.k + G.r - p)).length
      = G.k + G.r - p := by
    rw [List.length_take, hcw]; omega
  have hcore : decode_bf_core ci cs nc thresh cap p
      ((encode_small G (bitsOfBytes bs)).take (G.k + G.r - p))
      = (((prepass ((List.range nc).map fun c => checkRow ci cs c) (p + 1)
          ((encode_small G (bitsOfBytes bs)).take (G.k + G.r - p) ++ List.replicate p false,
            List.replicate
              ((encode_small G (bitsOfBytes bs)).take (G.k + G.r - p)).length false
              ++ List.replicate p true)).1), true, 0) := by
    show bfLoop ci cs nc _ thresh cap _ 0 = _
    exact bfLoop_converged ci cs nc _ thresh cap _ 0 hok hcap
  have hdec : decode_bf ci cs nc thresh cap p outBits
      ((encode_small G (bitsOfBytes bs)).take (G.k + G.r - p))
      = (bytesOfBits ((prepass ((List.range nc).map fun c => checkRow ci cs c) (p + 1)
          ((encode_small G (bitsOfBytes bs)).take (G.k + G.r - p) ++ List.replicate p false,
            List.replicate
              ((encode_small G (bitsOfBytes bs)).take (G.k + G.r - p)).length false
              ++ List.replicate p true)).1.take outBits), true, 0) := by
    unfold decode_bf
    rw [hcore]
  rw [hdec]
  refine ⟨rfl, ?_⟩
  set data := bitsOfBytes bs with hdata
  set rx := (encode_small G data).take (G.k + G.r - p) with hrxdef
  set st := prepass ((List.range nc).map fun c => checkRow ci cs c) (p + 1)
    (rx ++ List.replicate p false,
      List.replicate rx.length false ++ List.replicate p true) with hstdef
  have hstlen : st.1.length = G.k + G.r := by
    rw [hstdef]
    rw [(prepass_len _ _ _).1]
    show (rx ++ List.replicate p false).length = G.k + G.r
    rw [List.length_append, hrx, List.length_replicate]
    omega
  have hpresA : st.1.take G.k = data := by
    apply List.ext_getElem (by rw [List.length_take, hstlen, hdlen]; omega)
    intro v hv hv'
    have hvk : v < G.k := by
      rw [List.length_take, hstlen] at hv; omega
    have he0 : (List.replicate rx.length false ++ List.replicate p true).getD v false
        = false := by
      rw [getD_append_low _ _ v (by rw [List.length_replicate, hrx]; omega)]
      exact replicate_getD_false _ _
    have hpres := prepass_pres ((List.range nc).map fun c => checkRow ci cs c) (p + 1)
      (rx ++ List.replicate p false,
        List.replicate rx.length false ++ List.replicate p true) v he0
    have hw0 : (rx ++ List.replicate p false).getD v false = data.getD v false := by
      rw [getD_append_low _ _ v (by rw [hrx]; omega)]
      have hvtake : v < ((encode_small G data).take (G.k + G.r - p)).length := by
        rw [← hrxdef, hrx]; omega
      rw [hrxdef, take_getD _ _ _ hvtake]
      show (data ++ parity_small G data).getD v false = data.getD v false
      exact getD_append_low data (parity_small G data) v (by rw [hdlen]; omega)
    have hget : st.1.getD v false = data.getD v false := by
      rw [← hstdef] at hpres
      exact hpres.1.trans hw0
    rw [List.getElem_take]
    rw [← List.getD_eq_getElem st.1 false (by rw [hstlen]; omega),
      ← List.getD_eq_getElem data false hv', hget]
  have hsplit : st.1.take outBits
      = data ++ (st.1.drop G.k).take (outBits - G.k) := by
    conv_lhs => rw [show outBits = G.k + (outBits - G.k) by omega, List.take_add]
    rw [hpresA]
  rw [hsplit, hdata]
  exact bytesOfBits_take bs _ hb

theorem c4_witness :
    ((∀ b ∈ [165], b < 256) ∧ 8 * [165].length = demoShape.k ∧ 0 ≤ demoShape.r ∧
      1 ≤ 1 ∧ demoShape.k ≤ 8 ∧
      checksOK demoCi demoCs 8
        (prepass ((List.range 8).map fun c => checkRow demoCi demoCs c) (0 + 1)
          ((encode_small demoShape (bitsOfBytes [165])).take
              (demoShape.k + demoShape.r - 0) ++ List.replicate 0 false,
            List.replicate
              ((encode_small demoShape (bitsOfBytes [165])).take
                (demoShape.k + demoShape.r - 0)).length false
              ++ List.replicate 0 true)).1 = true) ∧
    ((decode_bf demoCi demoCs 8 1 1 0 8
        ((encode_small demoShape (bitsOfBytes [165])).take
          (demoShape.k + demoShape.r - 0))).2.1 = true ∧
      ((decode_bf demoCi demoCs 8 1 1 0 8
          ((encode_small demoShape (bitsOfBytes [165])).take
            (demoShape.k + demoShape.r - 0))).1).take [165].length = [165]) :=
  ⟨⟨by decide, by decide, by decide, by decide, by decide, by decide⟩,
    c4_decode_bf_roundtrip demoShape demoCi demoCs 8 1 1 0 8 [165]
      (by decide) (by decide) (by decide) (by decide) (by decide) (by decide)⟩

theorem csOf_getD (rows : List (List Nat)) (c : Nat) (hc : c ≤ rows.length) :
    (csOf rows).getD c 0 = ((rows.take c).map List.length).sum := by
  unfold csOf
  rw [List.getD_eq_getElem _ _ (by simpa using Nat.lt_succ_of_le hc)]
  simp

theorem flatten_drop_sum (rows : List (List Nat)) :
    ∀ c : Nat, (rows.flatten).drop (((rows.take c).map List.length).sum)
      = (rows.drop c).flatten := by
  induction rows with
  | nil => intro c; simp
  | cons h t ih =>
      intro c
      cases c with
      | zero => simp
      | succ c' =>
          simp only [List.take_succ_cons, List.map_cons, List.sum_cons,
            List.flatten_cons, List.drop_succ_cons]
          rw [List.drop_append]
          exact ih c'

theorem checkRow_csr (rows : List (List Nat)) (c : Nat) (hc : c < rows.length) :
    checkRow rows.flatten (csOf rows) c = rows.getD c [] := by
  unfold checkRow
  rw [csOf_getD rows c (Nat.le_of_lt hc), csOf_getD rows (c + 1) hc,
    flatten_drop_sum rows c]
  have htake : rows.take (c + 1) = rows.take c ++ [rows.getD c []] := by
    rw [List.take_succ, List.getElem?_eq_getElem hc]
    rw [List.getD_eq_getElem _ _ hc]
    rfl
  rw [htake, List.map_append, List.sum_append]
  simp only [List.map_cons, List.map_nil, List.sum_cons, List.sum_nil]
  have hdiff : ((rows.take c).map List.length).sum + ((rows.getD c []).length + 0)
      - ((rows.take c).map List.length).sum = (rows.getD c []).length := by omega
  rw [hdiff]
  have hdropc : rows.drop c = rows.getD c [] :: rows.drop (c + 1) := by
    rw [List.getD_eq_getElem _ _ hc]
    exact List.drop_eq_getElem_cons hc
  rw [hdropc, List.flatten_cons]
  exact List.take_left _ _

theorem count_decEq_pair (a : Nat × Nat) (l : List (Nat × Nat)) :
    @List.count _ instBEqOfDecidableEq a l = List.count a l := by
  show List.countP (fun b => @BEq.beq _ instBEqOfDecidableEq b a) l
      = List.countP (fun b => b == a) l
  apply List.countP_congr
  intro x _
  show (decide (x = a) = true) ↔ ((x == a) = true)
  constructor
  · intro h; exact beq_iff_eq.mpr (of_decide_eq_true h)
  · intro h; exact decide_eq_true (beq_iff_eq.mp h)

theorem count_map_pair (f : Nat → Nat × Nat) (hf : ∀ a b, f a = f b → a = b)
    (l : List Nat) (x : Nat) : List.count (f x) (l.map f) = l.count x := by
  induction l with
  | nil => rfl
  | cons a t ih =>
      simp only [List.map_cons]
      rw [List.count_cons, List.count_cons, ih]
      congr 1
      by_cases hax : a = x
      · subst hax; simp
      · have h1 : (a == x) = false := beq_eq_false_iff_ne.mpr hax
        have h2 : (f a == f x) = false :=
          beq_eq_false_iff_ne.mpr fun h => hax (hf a x h)
        rw [h1, h2]

theorem count_pair_map_fst (c0 v0 c : Nat) (l : List Nat) :
    List.count (c0, v0) (l.map fun v => (c, v))
      = if c = c0 then l.count v0 else 0 := by
  by_cases hc : c = c0
  · subst hc
    rw [if_pos rfl]
    exact count_map_pair (fun v => (c, v)) (fun a b h => by simpa using h) l v0
  · rw [if_neg hc]
    rw [List.count_eq_zero]
    intro hmem
    rcases List.mem_map.mp hmem with ⟨x, _, hx⟩
    exact hc (congrArg Prod.fst hx)

theorem count_pair_map_snd (c0 v0 v : Nat) (l : List Nat) :
    List.count (c0, v0) (l.map fun c => (c, v))
      = if v = v0 then l.count c0 else 0 := by
  by_cases hv : v = v0
  · subst hv
    rw [if_pos rfl]
    exact count_map_pair (fun c => (c, v)) (fun a b h => by simpa using h) l c0
  · rw [if_neg hv]
    rw [List.count_eq_zero]
    intro hmem
    rcases List.mem_map.mp hmem with ⟨x, _, hx⟩
    exact hv (congrArg Prod.snd hx)

theorem sum_map_range_single (g : Nat → Nat) (c : Nat) (h : ∀ x, x ≠ c → g x = 0) :
    ∀ nn : Nat, ((List.range nn).map g).sum = if c < nn then g c else 0 := by
  intro nn
  induction nn with
  | zero => simp
  | succ m ih =>
      rw [List.range_succ, List.map_append, List.sum_append, ih]
      simp only [List.map_cons, List.map_nil, List.sum_cons, List.sum_nil]
      by_cases h1 : c < m
      · have h2 : m ≠ c := by omega
        rw [if_pos h1, if_pos (by omega : c < m + 1), h m h2]
        omega
      · by_cases h3 : c = m
        · subst h3
          rw [if_neg h1, if_pos (Nat.lt_succ_self c)]
          omega
        · have h4 : m ≠ c := fun hh => h3 hh.symm
          rw [if_neg h1, if_neg (by omega : ¬ c < m + 1), h m h4]
          omega

theorem protoRow_lt (M : Nat) (hM : 0 < M) (blocks : List SubBlock) (W : Nat)
    (hW : blocks.length ≤ W) (i : Nat) :
    ∀ v ∈ protoRow M blocks i, v < W * M := by
  intro v hv
  unfold protoRow at hv
  rcases List.mem_flatMap.mp hv with ⟨p, hp, hv2⟩
  rcases List.mem_map.mp hv2 with ⟨e, he, hev⟩
  have hp1 : p.1 < blocks.length := by
    have := List.mem_enum_iff_getElem?.mp hp
    have h2 := List.getElem?_eq_some_iff.mp this
    exact h2.1
  have heM : e < M := by
    cases hb : p.2 with
    | zero => rw [hb] at he; cases he
    | shift s =>
        rw [hb] at he
        have : e = (i + s) % M := by simpa [blockEntries] using he
        rw [this]
        exact Nat.mod_lt _ hM
    | sums l =>
        rw [hb] at he
        have h2 : e < M ∧ ((l.map fun s => (i + s) % M).count e) % 2 = 1 := by
          simpa [blockEntries] using he
        exact h2.1
  have : p.1 * M + e < (p.1 + 1) * M := by
    rw [Nat.succ_mul]
    omega
  have h2 : (p.1 + 1) * M ≤ W * M :=
    Nat.mul_le_mul_right M (by omega)
  omega

theorem protoChecks_length (proto : List (List SubBlock)) (M : Nat) :
    (protoChecks proto M).length = proto.length * M := by
  simp [protoChecks]

theorem protoChecks_getD (proto : List (List SubBlock)) (M c : Nat)
    (hc : c < proto.length * M) :
    (protoChecks proto M).getD c [] = protoRow M (proto.getD (c / M) []) (c % M) := by
  unfold protoChecks
  rw [List.getD_eq_getElem _ _ (by simpa using hc)]
  simp

theorem flatMap_congr (l : List Nat) (f g : Nat → List (Nat × Nat))
    (h : ∀ x ∈ l, f x = g x) : l.flatMap f = l.flatMap g := by
  induction l with
  | nil => rfl
  | cons x t ih =>
      simp only [List.flatMap_cons]
      rw [h x (List.mem_cons_self x t),
        ih fun y hy => h y (List.mem_cons_of_mem _ hy)]

/-- Claim C5: for every prototype grid with positive block size whose rows
fit the declared width, the two sparse adjacency representations produced by
`init_sparse_paritycheck` describe the same bipartite Tanner graph: the
multiset of (check, variable) edges read from `(ci, cs)` equals the multiset
read from `(vi, vs)`. -/
theorem c5_same_graph (proto : List (List SubBlock)) (M W : Nat) (hM : 0 < M)
    (hW : ∀ blocks ∈ proto, blocks.length ≤ W) :
    ((edgesC (init_sparse_paritycheck proto M W).1
        (init_sparse_paritycheck proto M W).2.1 (proto.length * M) : List (Nat × Nat))
      : Multiset (Nat × Nat))
      = ((edgesV (init_sparse_paritycheck proto M W).2.2.1
          (init_sparse_paritycheck proto M W).2.2.2 (W * M) : List (Nat × Nat))
        : Multiset (Nat × Nat)) := by
  set rows := protoChecks proto M with hrows
  have hrl : rows.length = proto.length * M := protoChecks_length proto M
  have hinit : init_sparse_paritycheck proto M W
      = (rows.flatten, csOf rows, (varRows rows (W * M)).flatten,
          csOf (varRows rows (W * M))) := rfl
  have hvl : (varRows rows (W * M)).length = W * M := by simp [varRows]
  have hrowacc : ∀ c < proto.length * M,
      checkRow rows.flatten (csOf rows) c = rows.getD c [] := by
    intro c hc
    exact checkRow_csr rows c (by rw [hrl]; exact hc)
  have hcolacc : ∀ v < W * M,
      checkRow (varRows rows (W * M)).flatten (csOf (varRows rows (W * M))) v
        = colOf rows v := by
    intro v hv
    rw [checkRow_csr _ v (by rw [hvl]; exact hv)]
    unfold varRows
    rw [List.getD_eq_getElem _ _ (by simpa using hv)]
    simp
  have hEC : edgesC (init_sparse_paritycheck proto M W).1
      (init_sparse_paritycheck proto M W).2.1 (proto.length * M)
      = (List.range (proto.length * M)).flatMap
          fun c => (rows.getD c []).map fun v => (c, v) := by
    rw [hinit]
    unfold edgesC
    apply flatMap_congr
    intro c hc
    rw [List.mem_range] at hc
    rw [hrowacc c hc]
  have hEV : edgesV (init_sparse_paritycheck proto M W).2.2.1
      (init_sparse_paritycheck proto M W).2.2.2 (W * M)
      = (List.range (W * M)).flatMap
          fun v => (colOf rows v).map fun c => (c, v) := by
    rw [hinit]
    unfold edgesV
    apply flatMap_congr
    intro v hv
    rw [List.mem_range] at hv
    rw [hcolacc v hv]
  rw [hEC, hEV]
  rw [Multiset.coe_eq_coe]
  rw [List.perm_iff_count]
  intro pr
  rw [count_decEq_pair pr _, count_decEq_pair pr _]
  obtain ⟨c0, v0⟩ := pr
  have hrange : ∀ c < proto.length * M, ∀ v ∈ rows.getD c [], v < W * M := by
    intro c hc v hv
    rw [hrows, protoChecks_getD proto M c hc] at hv
    have hsub : (proto.getD (c / M) []).length ≤ W := by
      have hcM : c / M < proto.length :=
        Nat.div_lt_of_lt_mul (by rw [Nat.mul_comm]; exact hc)
      rw [List.getD_eq_getElem _ _ hcM]
      exact hW _ (List.getElem_mem hcM)
    exact protoRow_lt M hM _ W hsub _ v hv
  have hA : List.count (c0, v0)
      ((List.range (proto.length * M)).flatMap fun c => (rows.getD c []).map fun v => (c, v))
      = if c0 < proto.length * M then (rows.getD c0 []).count v0 else 0 := by
    rw [List.count_flatMap]
    have hsingle := sum_map_range_single
      (fun c => List.count (c0, v0) ((rows.getD c []).map fun v => (c, v))) c0
      (fun x hx => by
        show List.count (c0, v0) ((rows.getD x []).map fun v => (x, v)) = 0
        rw [count_pair_map_fst, if_neg hx])
      (proto.length * M)
    rw [show (List.map (List.count (c0, v0) ∘ fun c => (rows.getD c []).map fun v => (c, v))
        (List.range (proto.length * M))).sum
        = ((List.range (proto.length * M)).map
            fun c => List.count (c0, v0) ((rows.getD c []).map fun v => (c, v))).sum from rfl]
    rw [hsingle]
    by_cases hc0 : c0 < proto.length * M
    · rw [if_pos hc0, if_pos hc0, count_pair_map_fst, if_pos rfl]
    · rw [if_neg hc0, if_neg hc0]
  have hcol : ∀ v, List.count c0 (colOf rows v)
      = if c0 < proto.length * M then (rows.getD c0 []).count v else 0 := by
    intro v
    unfold colOf
    rw [List.count_flatMap]
    have hsingle := sum_map_range_single
      (fun c => List.count c0 (List.replicate ((rows.getD c []).count v) c)) c0
      (fun x hx => by
        show List.count c0 (List.replicate ((rows.getD x []).count v) x) = 0
        rw [List.count_replicate]
        rw [if_neg (by simpa using hx)])
      rows.length
    rw [show (List.map (List.count c0 ∘
          fun c => List.replicate ((rows.getD c []).count v) c)
          (List.range rows.length)).sum
        = ((List.range rows.length).map
            fun c => List.count c0 (List.replicate ((rows.getD c []).count v) c)).sum
        from rfl]
    rw [hsingle, hrl]
    by_cases hc0 : c0 < proto.length * M
    · rw [if_pos hc0, if_pos hc0, List.count_replicate, if_pos (by simp)]
    · rw [if_neg hc0, if_neg hc0]
  have hB : List.count (c0, v0)
      ((List.range (W * M)).flatMap fun v => (colOf rows v).map fun c => (c, v))
      = if v0 < W * M then List.count c0 (colOf rows v0) else 0 := by
    rw [List.count_flatMap]
    have hsingle := sum_map_range_single
      (fun v => List.count (c0, v0) ((colOf rows v).map fun c => (c, v))) v0
      (fun x hx => by
        show List.count (c0, v0) ((colOf rows x).map fun c => (c, x)) = 0
        rw [count_pair_map_snd, if_neg hx])
      (W * M)
    rw [show (List.map (List.count (c0, v0) ∘ fun v => (colOf rows v).map fun c => (c, v))
        (List.range (W * M))).sum
        = ((List.range (W * M)).map
            fun v => List.count (c0, v0) ((colOf rows v).map fun c => (c, v))).sum from rfl]
    rw [hsingle]
    by_cases hv0 : v0 < W * M
    · rw [if_pos hv0, if_pos hv0, count_pair_map_snd, if_pos rfl]
    · rw [if_neg hv0, if_neg hv0]
  rw [hA, hB, hcol v0]
  by_cases hc0 : c0 < proto.length * M
  · by_cases hv0 : v0 < W * M
    · rw [if_pos hc0, if_pos hv0]
    · rw [if_pos hc0, if_neg hv0]
      rw [List.count_eq_zero]
      intro hmem
      exact hv0 (hrange c0 hc0 v0 hmem)
  · by_cases hv0 : v0 < W * M
    · rw [if_neg hc0, if_pos hv0]
    · rw [if_neg hc0, if_neg hv0]

theorem c5_witness :
    (0 < 3 ∧ (∀ blocks ∈ [[SubBlock.shift 1, SubBlock.sums [0, 1, 2]]],
      List.length blocks ≤ 2)) ∧
    ((edgesC (init_sparse_paritycheck [[SubBlock.shift 1, SubBlock.sums [0, 1, 2]]] 3 2).1
        (init_sparse_paritycheck [[SubBlock.shift 1, SubBlock.sums [0, 1, 2]]] 3 2).2.1
        (List.length [[SubBlock.shift 1, SubBlock.sums [0, 1, 2]]] * 3) : List (Nat × Nat))
      : Multiset (Nat × Nat))
      = ((edgesV
          (init_sparse_paritycheck [[SubBlock.shift 1, SubBlock.sums [0, 1, 2]]] 3 2).2.2.1
          (init_sparse_paritycheck [[SubBlock.shift 1, SubBlock.sums [0, 1, 2]]] 3 2).2.2.2
          (2 * 3) : List (Nat × Nat)) : Multiset (Nat × Nat)) :=
  ⟨⟨by decide, by decide⟩,
    c5_same_graph [[SubBlock.shift 1, SubBlock.sums [0, 1, 2]]] 3 2 (by decide) (by decide)⟩

theorem foldl_scanStep_split (l : List Int) :
    ∀ (s : Int) (p : Nat × Nat),
      l.foldl scanStep (s, p)
        = (l.foldl (fun a x => a * sgn x) s,
            l.foldl (fun q x => m1m2step q x.natAbs) p) := by
  induction l with
  | nil => intro s p; rfl
  | cons x t ih =>
      intro s p
      simp only [List.foldl_cons]
      exact ih (s * sgn x) (m1m2step p x.natAbs)

theorem foldl_sgn_prod (l : List Int) :
    ∀ s : Int, l.foldl (fun a x => a * sgn x) s = s * (l.map sgn).prod := by
  induction l with
  | nil => intro s; simp
  | cons x t ih =>
      intro s
      simp only [List.foldl_cons, List.map_cons, List.prod_cons]
      rw [ih (s * sgn x), mul_assoc]

theorem orderedInsert_firstTwo (x s0 s1 : Nat) (tl : List Nat) (h01 : s0 ≤ s1) :
    ((List.orderedInsert (· ≤ ·) x (s0 :: s1 :: tl)).getD 0 0,
      (List.orderedInsert (· ≤ ·) x (s0 :: s1 :: tl)).getD 1 0)
      = m1m2step (s0, s1) x := by
  unfold m1m2step
  by_cases hx0 : x ≤ s0
  · rw [List.orderedInsert, if_pos hx0]
    by_cases hlt : x < s0
    · rw [if_pos hlt]; rfl
    · rw [if_neg hlt]
      have hx : x = s0 := Nat.le_antisymm hx0 (Nat.le_of_not_lt hlt)
      subst hx
      rw [Nat.min_eq_right h01]
      rfl
  · rw [List.orderedInsert, if_neg hx0]
    have h0x : s0 < x := Nat.lt_of_not_le hx0
    have hnlt : ¬ x < s0 := by omega
    rw [if_neg hnlt]
    by_cases hx1 : x ≤ s1
    · rw [List.orderedInsert, if_pos hx1]
      rw [Nat.min_eq_right hx1]
      rfl
    · rw [List.orderedInsert, if_neg hx1]
      rw [Nat.min_eq_left (by omega : s1 ≤ x)]
      rfl

theorem twoMins_sorted (l : List Nat) :
    ∀ a b : Nat,
      l.foldl m1m2step (min a b, max a b)
        = ((List.insertionSort (· ≤ ·) (a :: b :: l)).getD 0 0,
            (List.insertionSort (· ≤ ·) (a :: b :: l)).getD 1 0) := by
  induction l using List.reverseRecOn with
  | nil =>
      intro a b
      simp only [List.foldl_nil]
      show (min a b, max a b)
        = ((List.orderedInsert (· ≤ ·) a (List.orderedInsert (· ≤ ·) b [])).getD 0 0,
            (List.orderedInsert (· ≤ ·) a (List.orderedInsert (· ≤ ·) b [])).getD 1 0)
      show (min a b, max a b)
        = ((List.orderedInsert (· ≤ ·) a [b]).getD 0 0,
            (List.orderedInsert (· ≤ ·) a [b]).getD 1 0)
      rw [List.orderedInsert]
      by_cases hab : a ≤ b
      · rw [if_pos hab, Nat.min_eq_left hab, Nat.max_eq_right hab]
        rfl
      · rw [if_neg hab]
        have hba : b ≤ a := Nat.le_of_not_le hab
        rw [Nat.min_eq_right hba, Nat.max_eq_left hba]
        rfl
  | append_singleton t x ih =>
      intro a b
      rw [List.foldl_append]
      simp only [List.foldl_cons, List.foldl_nil]
      rw [ih a b]
      have hperm : (a :: b :: (t ++ [x])).Perm (x :: a :: b :: t) := by
        have h1 : (t ++ [x]).Perm (x :: t) := List.perm_append_singleton x t
        have h2 : (a :: b :: (t ++ [x])).Perm (a :: b :: x :: t) :=
          List.Perm.cons a (List.Perm.cons b h1)
        have h3 : (b :: x :: t).Perm (x :: b :: t) := List.Perm.swap x b t
        have h4 : (a :: b :: x :: t).Perm (a :: x :: b :: t) := List.Perm.cons a h3
        have h5 : (a :: x :: b :: t).Perm (x :: a :: b :: t) := List.Perm.swap x a _
        exact (h2.trans h4).trans h5
      have hS' : List.insertionSort (· ≤ ·) (a :: b :: (t ++ [x]))
          = List.orderedInsert (· ≤ ·) x (List.insertionSort (· ≤ ·) (a :: b :: t)) := by
        have hp : (List.insertionSort (· ≤ ·) (a :: b :: (t ++ [x]))).Perm
            (List.orderedInsert (· ≤ ·) x (List.insertionSort (· ≤ ·) (a :: b :: t))) :=
          ((List.perm_insertionSort _ _).trans hperm).trans
            ((List.Perm.cons x (List.perm_insertionSort _ _).symm).trans
              (List.perm_orderedInsert _ _ _).symm)
        exact List.eq_of_perm_of_sorted hp (List.sorted_insertionSort _ _)
          ((List.sorted_insertionSort (· ≤ ·) (a :: b :: t)).orderedInsert x _)
      rw [hS']
      have hlen : 2 ≤ (List.insertionSort (· ≤ ·) (a :: b :: t)).length := by
        rw [(List.perm_insertionSort (· ≤ ·) (a :: b :: t)).length_eq]
        simp
      cases hs : List.insertionSort (· ≤ ·) (a :: b :: t) with
      | nil => rw [hs] at hlen; simp at hlen
      | cons s0 rest =>
          cases rest with
          | nil => rw [hs] at hlen; simp at hlen
          | cons s1 tl =>
              have hsort := List.sorted_insertionSort (· ≤ ·) (a :: b :: t)
              rw [hs] at hsort
              have h01 : s0 ≤ s1 :=
                (List.sorted_cons.mp hsort).1 s1 (List.mem_cons_self s1 tl)
              rw [orderedInsert_firstTwo x s0 s1 tl h01]
              rfl

theorem checkScan_eq (ms : List Int) (h2 : 2 ≤ ms.length) :
    checkScan ms
      = ((ms.map sgn).prod,
          (List.insertionSort (· ≤ ·) (ms.map Int.natAbs)).getD 0 0,
          (List.insertionSort (· ≤ ·) (ms.map Int.natAbs)).getD 1 0) := by
  cases ms with
  | nil => simp at h2
  | cons x rest =>
      cases rest with
      | nil => simp at h2
      | cons y t =>
          show t.foldl scanStep
              (sgn x * sgn y, min x.natAbs y.natAbs, max x.natAbs y.natAbs) = _
          rw [foldl_scanStep_split t (sgn x * sgn y)
            (min x.natAbs y.natAbs, max x.natAbs y.natAbs)]
          rw [foldl_sgn_prod]
          have hm : t.foldl (fun q x => m1m2step q x.natAbs)
              (min x.natAbs y.natAbs, max x.natAbs y.natAbs)
              = (t.map Int.natAbs).foldl m1m2step
                  (min x.natAbs y.natAbs, max x.natAbs y.natAbs) := by
            rw [List.foldl_map]
          rw [hm, twoMins_sorted (t.map Int.natAbs) x.natAbs y.natAbs]
          simp only [List.map_cons, List.prod_cons, mul_assoc]

/-- Claim C6: the check-node message computed inside each `decode_mp`
iteration follows Savin's modified min-sum rule: with `S` the product of the
signs of the incoming messages of check `c`, and `m1`, `m2` the minimum and
second-minimum of their absolute values (the first two entries of the
sorted magnitude list), the outgoing message `u_cv[c → v]` has magnitude
`m1` if `|v_vc[v → c]| ≠ m1` and `m2` otherwise, and sign
`S * sgn (v_vc[v → c])`. -/
theorem c6_checknode_minsum (ci cs : List Nat) (vv : Nat → Nat → Int) (c v : Nat)
    (_hmem : v ∈ checkRow ci cs c) (h2 : 2 ≤ (checkRow ci cs c).length) :
    ucv ci cs vv c v
      = ((incoming ci cs vv c).map sgn).prod * sgn (vv v c)
        * (((if (vv v c).natAbs
              ≠ (List.insertionSort (· ≤ ·)
                  ((incoming ci cs vv c).map Int.natAbs)).getD 0 0
            then (List.insertionSort (· ≤ ·)
                  ((incoming ci cs vv c).map Int.natAbs)).getD 0 0
            else (List.insertionSort (· ≤ ·)
                  ((incoming ci cs vv c).map Int.natAbs)).getD 1 0)
          : Nat) : Int) := by
  unfold ucv checkMsg
  have hlen : 2 ≤ (incoming ci cs vv c).length := by
    unfold incoming
    rw [List.length_map]
    exact h2
  rw [checkScan_eq _ hlen]

theorem c6_witness :
    ((1 : Nat) ∈ checkRow [0, 1, 2] [0, 3] 0 ∧ 2 ≤ (checkRow [0, 1, 2] [0, 3] 0).length) ∧
    (ucv [0, 1, 2] [0, 3]
        (fun v _ => if v = 0 then (3 : Int) else if v = 1 then -5 else 2) 0 1
      = ((incoming [0, 1, 2] [0, 3]
            (fun v _ => if v = 0 then (3 : Int) else if v = 1 then -5 else 2) 0).map
          sgn).prod
        * sgn ((fun v _ => if v = 0 then (3 : Int) else if v = 1 then -5 else 2) 1 0)
        * (((if ((fun v _ => if v = 0 then (3 : Int) else if v = 1 then -5 else 2) 1 0).natAbs
              ≠ (List.insertionSort (· ≤ ·)
                  ((incoming [0, 1, 2] [0, 3]
                    (fun v _ => if v = 0 then (3 : Int) else if v = 1 then -5 else 2) 0).map
                      Int.natAbs)).getD 0 0
            then (List.insertionSort (· ≤ ·)
                  ((incoming [0, 1, 2] [0, 3]
                    (fun v _ => if v = 0 then (3 : Int) else if v = 1 then -5 else 2) 0).map
                      Int.natAbs)).getD 0 0
            else (List.insertionSort (· ≤ ·)
                  ((incoming [0, 1, 2] [0, 3]
                    (fun v _ => if v = 0 then (3 : Int) else if v = 1 then -5 else 2) 0).map
                      Int.natAbs)).getD 1 0)
          : Nat) : Int)) :=
  ⟨⟨by decide, by decide⟩,
    c6_checknode_minsum [0, 1, 2] [0, 3]
      (fun v _ => if v = 0 then (3 : Int) else if v = 1 then -5 else 2) 0 1
      (by decide) (by decide)⟩

theorem bfLoop_iters (ci cs : List Nat) (nc nv thresh : Nat) :
    ∀ (fuel : Nat) (w : List Bool) (it : Nat),
      (bfLoop ci cs nc nv thresh fuel w it).2.2 ≤ it + fuel := by
  intro fuel
  induction fuel with
  | zero => intro w it; exact Nat.le_refl it
  | succ f ih =>
      intro w it
      show (if checksOK ci cs nc w then (w, true, it)
        else if maxScore ci cs nc nv w < thresh then (w, false, it)
        else bfLoop ci cs nc nv thresh f (bfFlip ci cs nc nv w) (it + 1)).2.2 ≤ it + (f + 1)
      by_cases hc : checksOK ci cs nc w
      · rw [if_pos hc]
        exact Nat.le_add_right it (f + 1)
      · rw [if_neg hc]
        by_cases hm : maxScore ci cs nc nv w < thresh
        · rw [if_pos hm]
          exact Nat.le_add_right it (f + 1)
        · rw [if_neg hm]
          have := ih (bfFlip ci cs nc nv w) (it + 1)
          omega

theorem mpLoop_iters (ci cs vi vs : List Nat) (nc nv : Nat) (llr : Nat → Int) :
    ∀ (fuel : Nat) (vv : Nat → Nat → Int) (hard : List Bool) (it : Nat),
      (mpLoop ci cs vi vs nc nv llr fuel vv hard it).2.2 ≤ it + fuel := by
  intro fuel
  induction fuel with
  | zero => intro vv hard it; exact Nat.le_refl it
  | succ f ih =>
      intro vv hard it
      show (if checksOK ci cs nc
            ((List.range nv).map fun v => decide (mpTotal ci cs vi vs llr vv v < 0))
          then ((List.range nv).map fun v => decide (mpTotal ci cs vi vs llr vv v < 0),
                true, it + 1)
          else mpLoop ci cs vi vs nc nv llr f
            (fun v c => mpTotal ci cs vi vs llr vv v - ucv ci cs vv c v)
            ((List.range nv).map fun v => decide (mpTotal ci cs vi vs llr vv v < 0))
            (it + 1)).2.2 ≤ it + (f + 1)
      by_cases hc : checksOK ci cs nc
          ((List.range nv).map fun v => decide (mpTotal ci cs vi vs llr vv v < 0))
      · rw [if_pos hc]
        exact Nat.add_le_add_left (Nat.succ_le_succ (Nat.zero_le f)) it
      · rw [if_neg hc]
        have := ih (fun v c => mpTotal ci cs vi vs llr vv v - ucv ci cs vv c v)
          ((List.range nv).map fun v => decide (mpTotal ci cs vi vs llr vv v < 0)) (it + 1)
        omega

/-- Claim C7: on every input, both decoders return a (converged, iterations)
status — never an error — with the iteration count bounded by the cap, and
the output bytes are the packed hard decisions of the final internal word,
whether or not the decoder converged. -/
theorem c7_status_contract (ci cs vi vs : List Nat)
    (nc nv thresh cap p outBits : Nat) (rx : List Bool) (inputs : List FloatV) :
    decode_bf ci cs nc thresh cap p outBits rx
      = (bytesOfBits ((decode_bf_core ci cs nc thresh cap p rx).1.take outBits),
          (decode_bf_core ci cs nc thresh cap p rx).2.1,
          (decode_bf_core ci cs nc thresh cap p rx).2.2) ∧
    (decode_bf ci cs nc thresh cap p outBits rx).2.2 ≤ cap ∧
    decode_mp ci cs vi vs nc nv cap outBits inputs
      = (bytesOfBits
          ((mpCore ci cs vi vs nc nv cap
            (fun v => clampI (inputs.getD v (FloatV.fin 0)))).1.take outBits),
          (mpCore ci cs vi vs nc nv cap
            (fun v => clampI (inputs.getD v (FloatV.fin 0)))).2.1,
          (mpCore ci cs vi vs nc nv cap
            (fun v => clampI (inputs.getD v (FloatV.fin 0)))).2.2) ∧
    (decode_mp ci cs vi vs nc nv cap outBits inputs).2.2 ≤ cap := by
  refine ⟨rfl, ?_, rfl, ?_⟩
  · have h := bfLoop_iters ci cs nc
      (rx.length + p) thresh cap
      (prepass ((List.range nc).map fun c => checkRow ci cs c) (p + 1)
        (rx ++ List.replicate p false,
          List.replicate rx.length false ++ List.replicate p true)).1 0
    rw [Nat.zero_add] at h
    exact h
  · have h := mpLoop_iters ci cs vi vs nc nv
      (fun v => clampI (inputs.getD v (FloatV.fin 0))) cap
      (fun v _ => clampI (inputs.getD v (FloatV.fin 0)))
      ((List.range nv).map fun v => decide (clampI (inputs.getD v (FloatV.fin 0)) < 0)) 0
    rw [Nat.zero_add] at h
    exact h

/-- Claim C8: `decode_mp` treats NaN and infinite soft inputs as zero
(maximum uncertainty): its result is unchanged when every non-finite input
is replaced by an exact zero, the remaining finite inputs being processed
normally, and it reaches a defined termination within the iteration cap. -/
theorem c8_nonfinite_clamped (ci cs vi vs : List Nat) (nc nv cap outBits : Nat)
    (inputs : List FloatV) :
    decode_mp ci cs vi vs nc nv cap outBits inputs
      = decode_mp ci cs vi vs nc nv cap outBits (inputs.map sanitizeF) ∧
    (decode_mp ci cs vi vs nc nv cap outBits inputs).2.2 ≤ cap := by
  constructor
  · unfold decode_mp
    congr 1
    funext v
    by_cases hv : v < inputs.length
    · rw [List.getD_eq_getElem _ _ hv,
        List.getD_eq_getElem _ _ (by simpa using hv)]
      rw [List.getElem_map]
      cases inputs[v] <;> rfl
    · rw [List.getD_eq_default _ _ (Nat.le_of_not_lt hv),
        List.getD_eq_default _ _ (by simpa using Nat.le_of_not_lt hv)]
  · have h := mpLoop_iters ci cs vi vs nc nv
      (fun v => clampI (inputs.getD v (FloatV.fin 0))) cap
      (fun v _ => clampI (inputs.getD v (FloatV.fin 0)))
      ((List.range nv).map fun v => decide (clampI (inputs.getD v (FloatV.fin 0)) < 0)) 0
    rw [Nat.zero_add] at h
    exact h

end LabradorLDPC
